import Mathlib

/-!
Verification of the healthtracker core (src/src/lib.rs) against its
natural-language specification.

Modelling choices for the shallow embedding:
* `chrono::NaiveDate` is modelled as `Int` (a day index); `date.pred()` is
  `date - 1`.
* `f32` measurement values (weight, biking distance) are modelled as `ℚ`;
  none of the verified behaviour depends on floating-point rounding, only on
  copying values and comparing them with the constant `10.0`.
* `HashMap<NaiveDate, Day>` is modelled as an association list
  `List (Int × Day)` with HashMap semantics: `findDay` looks a key up,
  `insertDay` replaces any existing binding of that key.
-/

namespace HealthTracker

/-- The `Day` record of src/src/lib.rs (lines 63-76): one calendar date's
observations. -/
structure Day where
  weight : Option ℚ
  workout : Bool
  training : Bool
  biking : Option ℚ
  cheatday : Bool
deriving DecidableEq, Repr

/-- `Day::new` (src/src/lib.rs lines 79-93). -/
def Day.new (weight : Option ℚ) (workout training : Bool) (biking : Option ℚ)
    (cheatday : Bool) : Day :=
  ⟨weight, workout, training, biking, cheatday⟩

/-- `const BIKING_DISTANCE: f32 = 10.0` (src/src/lib.rs line 12). -/
def BIKING_DISTANCE : ℚ := 10

/-- The `History` store (src/src/lib.rs lines 96-99): a map from date to
`Day`, modelled as an association list with unique-key map semantics. -/
structure History where
  map : List (Int × Day)
deriving DecidableEq, Repr

/-- `HashMap::get`: look up the record stored for a date. -/
def findDay (m : List (Int × Day)) (d : Int) : Option Day :=
  match m with
  | [] => none
  | (k, v) :: rest => if k = d then some v else findDay rest d

/-- `HashMap::insert`: bind `d` to `v`, replacing any existing binding. -/
def insertDay (m : List (Int × Day)) (d : Int) (v : Day) : List (Int × Day) :=
  (d, v) :: m.filter (fun p => decide (p.1 ≠ d))

/-- `History::log_weight` (src/src/lib.rs lines 115-128). -/
def History.log_weight (h : History) (date : Int) (weight : ℚ) : History :=
  let day := match findDay h.map date with
    | some day => Day.new (some weight) day.workout day.training day.biking day.cheatday
    | none => Day.new (some weight) false false none false
  ⟨insertDay h.map date day⟩

/-- `History::log_sport` (src/src/lib.rs lines 130-153). -/
def History.log_sport (h : History) (date : Int) (workout training : Bool)
    (biking : Option ℚ) (cheatday : Bool) : History :=
  let day := match findDay h.map date with
    | some day =>
        Day.new day.weight (day.workout || workout) (day.training || training)
          (match biking with
           | some d => some d
           | none => day.biking)
          (day.cheatday || cheatday)
    | none => Day.new none workout training biking cheatday
  ⟨insertDay h.map date day⟩

/-- The activity condition of `History::get_sport_streak`
(src/src/lib.rs line 172): `day.workout || day.training ||
day.biking.unwrap_or(0.0) >= BIKING_DISTANCE`. -/
def codeActive (day : Day) : Bool :=
  day.workout || day.training || decide (day.biking.getD 0 ≥ BIKING_DISTANCE)

lemma length_filter_le_of_imp (p q : Int × Day → Bool)
    (hpq : ∀ a, p a = true → q a = true) (l : List (Int × Day)) :
    (l.filter p).length ≤ (l.filter q).length := by
  induction l with
  | nil => simp
  | cons a l ih =>
    by_cases hp : p a = true
    · simp [List.filter, hp, hpq a hp, Nat.succ_le_succ ih]
    · have hp' : p a = false := by revert hp; cases p a <;> simp
      simp only [List.filter, hp']
      cases hq : q a <;> simp [Nat.le_succ_of_le ih, ih]

lemma findDay_mem {m : List (Int × Day)} {d : Int} {v : Day}
    (h : findDay m d = some v) : (d, v) ∈ m := by
  induction m with
  | nil => simp [findDay] at h
  | cons a l ih =>
    obtain ⟨k, w⟩ := a
    rw [findDay] at h
    by_cases hk : k = d
    · rw [if_pos hk] at h
      subst hk
      cases h
      exact List.mem_cons_self _ _
    · rw [if_neg hk] at h
      exact List.mem_cons_of_mem _ (ih h)

lemma filter_pred_lt_of_mem {m : List (Int × Day)} {d : Int} {v : Day}
    (hmem : (d, v) ∈ m) :
    (m.filter (fun p => decide (p.1 ≤ d - 1))).length <
      (m.filter (fun p => decide (p.1 ≤ d))).length := by
  induction m with
  | nil => simp at hmem
  | cons a l ih =>
    rcases List.mem_cons.mp hmem with heq | hmem'
    · subst heq
      have h1 : (decide ((d, v).1 ≤ d - 1)) = false := by simp
      have h2 : (decide ((d, v).1 ≤ d)) = true := by simp
      simp only [List.filter, h1, h2, List.length_cons]
      exact Nat.lt_succ_of_le
        (length_filter_le_of_imp _ _ (fun a ha => by simp at ha ⊢; omega) l)
    · have hstep := ih hmem'
      by_cases h1 : (decide (a.1 ≤ d - 1)) = true
      · have h2 : (decide (a.1 ≤ d)) = true := by simp at h1 ⊢; omega
        simp only [List.filter, h1, h2, List.length_cons]
        exact Nat.succ_lt_succ hstep
      · have h1' : (decide (a.1 ≤ d - 1)) = false := by
          revert h1; cases decide (a.1 ≤ d - 1) <;> simp
        simp only [List.filter, h1']
        cases h2 : decide (a.1 ≤ d) <;>
          simp [hstep, Nat.lt_succ_of_lt hstep]

lemma filter_pred_lt {m : List (Int × Day)} {d : Int} {v : Day}
    (hfind : findDay m d = some v) :
    (m.filter (fun p => decide (p.1 ≤ d - 1))).length <
      (m.filter (fun p => decide (p.1 ≤ d))).length :=
  filter_pred_lt_of_mem (findDay_mem hfind)

/-- `History::get_sport_streak` (src/src/lib.rs lines 166-177): 0 when the
date has no record or the record is inactive, else one plus the streak of
the preceding day. -/
def History.get_sport_streak (h : History) (date : Int) : Nat :=
  match hfind : findDay h.map date with
  | none => 0
  | some day =>
      if codeActive day then 1 + h.get_sport_streak (date - 1) else 0
termination_by (h.map.filter (fun p => decide (p.1 ≤ date))).length
decreasing_by exact filter_pred_lt hfind

/-- Activity of a day as the spec phrases it: workout, or training, or a
present biking distance at or above the threshold (an absent biking value
contributes no activity). Written from the spec's words, to be compared
with `codeActive` taken from the source. -/
def specActive (day : Day) : Bool :=
  day.workout || day.training ||
    (match day.biking with
     | some x => decide (BIKING_DISTANCE ≤ x)
     | none => false)

/-- Whether the store holds an active record at date `d` (absent dates are
not active). -/
def activeAt (h : History) (d : Int) : Bool :=
  match findDay h.map d with
  | some day => codeActive day
  | none => false

/-- One core store mutation of src/src/lib.rs: a `History::log_weight` or a
`History::log_sport` call. -/
inductive Op where
  | weight (date : Int) (w : ℚ)
  | sport (date : Int) (workout training : Bool) (biking : Option ℚ) (cheatday : Bool)
deriving DecidableEq, Repr

def applyOp (h : History) : Op → History
  | Op.weight d w => h.log_weight d w
  | Op.sport d w t b c => h.log_sport d w t b c

/-- Run a sequence of logging operations starting from the empty store. -/
def runOps (ops : List Op) : History :=
  ops.foldl applyOp ⟨[]⟩

/-- The all-default placeholder record: weight absent, workout=false,
training=false, biking absent, cheatday=false. -/
def emptyDay : Day := ⟨none, false, false, none, false⟩

/-- Whether a logging operation supplies at least one field. -/
def opSetsField : Op → Bool
  | Op.weight _ _ => true
  | Op.sport _ w t b c => w || t || b.isSome || c

/-- Whether a record has at least one field set. -/
def Day.hasField (day : Day) : Bool :=
  day.weight.isSome || day.workout || day.training || day.biking.isSome ||
    day.cheatday

/-- A structured value of the persisted RON document: a float literal, a
boolean, or an `Option` value `None` / `Some(v)`. -/
inductive RonVal where
  | num (q : ℚ)
  | boolean (b : Bool)
  | optNone
  | optSome (v : RonVal)
deriving DecidableEq, Repr

/-- Look a field up by name in the field list of an encoded struct. -/
def getField (fields : List (String × RonVal)) (name : String) : Option RonVal :=
  match fields with
  | [] => none
  | (k, v) :: rest => if k = name then some v else getField rest name

/-- Decode a RON value expected to be an `Option<f32>`. -/
def decodeOptNum : RonVal → Option (Option ℚ)
  | RonVal.optNone => some none
  | RonVal.optSome (RonVal.num q) => some (some q)
  | _ => none

/-- Decode a RON value expected to be a `bool`. -/
def decodeBool : RonVal → Option Bool
  | RonVal.boolean b => some b
  | _ => none

/-- The serde-derived `Deserialize` for `Day` (src/src/lib.rs lines 63-76),
at the level of the field map: `workout` and `training` are required
fields, `weight` and `biking` have type `Option<f32>` so serde defaults
them to `None` when the field is missing, and `cheatday` carries
`#[serde(default)]` so it defaults to `false` when missing. -/
def decodeDay (fields : List (String × RonVal)) : Option Day := do
  let weight ← match getField fields "weight" with
    | some v => decodeOptNum v
    | none => some none
  let workout ← match getField fields "workout" with
    | some v => decodeBool v
    | none => none
  let training ← match getField fields "training" with
    | some v => decodeBool v
    | none => none
  let biking ← match getField fields "biking" with
    | some v => decodeOptNum v
    | none => some none
  let cheatday ← match getField fields "cheatday" with
    | some v => decodeBool v
    | none => some false
  some (Day.new weight workout training biking cheatday)

/-- Encode an `Option<f32>` field value. -/
def encodeOptNum : Option ℚ → RonVal
  | none => RonVal.optNone
  | some q => RonVal.optSome (RonVal.num q)

/-- The serde-derived `Serialize` for `Day`: all five fields are written. -/
def encodeDay (day : Day) : List (String × RonVal) :=
  [("weight", encodeOptNum day.weight),
   ("workout", RonVal.boolean day.workout),
   ("training", RonVal.boolean day.training),
   ("biking", encodeOptNum day.biking),
   ("cheatday", RonVal.boolean day.cheatday)]

/-- Remove a field from an encoded struct, as an earlier schema version
that did not have the field would have written it. -/
def dropField (fields : List (String × RonVal)) (name : String) :
    List (String × RonVal) :=
  fields.filter (fun p => decide (p.1 ≠ name))

/-- Decode the entry list of an encoded `History` map; any entry whose
record fails to decode fails the whole decode. -/
def decodeEntries : List (Int × List (String × RonVal)) → Option (List (Int × Day))
  | [] => some []
  | (d, fields) :: rest =>
    match decodeDay fields, decodeEntries rest with
    | some day, some tail => some ((d, day) :: tail)
    | _, _ => none

/-- `History::save`'s serialization (src/src/lib.rs line 162) at the level
of the document structure: every map entry is written with all fields. -/
def encodeHistory (h : History) : List (Int × List (String × RonVal)) :=
  h.map.map (fun p => (p.1, encodeDay p.2))

/-- `History::load`'s decoding (src/src/lib.rs line 105) at the level of
the document structure. -/
def decodeHistory (e : List (Int × List (String × RonVal))) : Option History :=
  (decodeEntries e).map History.mk

/-- The points where one logging invocation can fail
(`HealthTrackerError` sources in src/src/lib.rs): reading or decoding the
store in `History::load`, parsing the date in `get_date`, locating the
data file, creating it, or writing it in `History::save`. -/
inductive RunErr where
  | loadErr
  | parseErr
  | placeErr
  | createErr
  | writeErr
deriving DecidableEq, Repr

/-- Contents of the store file on disk: a well-formed encoding of a
history map, or the zero-length file left behind by `File::create` when
nothing has been written yet. -/
inductive FileContent where
  | good (m : List (Int × Day))
  | truncated
deriving DecidableEq, Repr

/-- Fault pattern for one invocation: which fallible I/O steps fail. -/
structure Faults where
  readFails : Bool
  parseFails : Bool
  placeFails : Bool
  createFails : Bool
  writeFails : Bool
deriving DecidableEq, Repr

/-- `History::load` (src/src/lib.rs lines 102-112) over the disk model: a
missing file yields the empty store; a read failure or undecodable
contents (the truncated file) is an error. `load` never writes the disk. -/
def loadStep (f : Faults) (disk : Option FileContent) : Except RunErr History :=
  match disk with
  | none => Except.ok ⟨[]⟩
  | some content =>
      if f.readFails then Except.error RunErr.loadErr
      else match content with
        | FileContent.good m => Except.ok ⟨m⟩
        | FileContent.truncated => Except.error RunErr.loadErr

/-- `History::save` (src/src/lib.rs lines 157-164) over the disk model:
locating the data file and `File::create` can fail with the disk
unchanged; once `File::create` succeeds the previous file contents are
gone (std::fs::File::create truncates), so a subsequent write failure
leaves the truncated file; a successful write stores the full encoding. -/
def saveSteps (f : Faults) (disk : Option FileContent) (h : History) :
    Except RunErr Unit × Option FileContent :=
  if f.placeFails then (Except.error RunErr.placeErr, disk)
  else if f.createFails then (Except.error RunErr.createErr, disk)
  else if f.writeFails then (Except.error RunErr.writeErr, some FileContent.truncated)
  else (Except.ok (), some (FileContent.good h.map))

/-- The shared shape of `pub fn log_weight` and `pub fn log_sport`
(src/src/lib.rs lines 231-253): load the store, parse the date, mutate in
memory, save. An error at any step aborts the rest. -/
def runLog (f : Faults) (disk : Option FileContent)
    (mutate : History → History) : Except RunErr Unit × Option FileContent :=
  match loadStep f disk with
  | Except.error e => (Except.error e, disk)
  | Except.ok h =>
      if f.parseFails then (Except.error RunErr.parseErr, disk)
      else saveSteps f disk (mutate h)

/-- `pub fn log_weight` (src/src/lib.rs lines 231-238) over the disk model. -/
def runLogWeight (f : Faults) (disk : Option FileContent) (date : Int)
    (weight : ℚ) : Except RunErr Unit × Option FileContent :=
  runLog f disk (fun h => h.log_weight date weight)

/-- `pub fn log_sport` (src/src/lib.rs lines 240-253) over the disk model. -/
def runLogSport (f : Faults) (disk : Option FileContent) (date : Int)
    (w t : Bool) (b : Option ℚ) (c : Bool) :
    Except RunErr Unit × Option FileContent :=
  runLog f disk (fun h => h.log_sport date w t b c)

lemma findDay_filter_ne {m : List (Int × Day)} {d d' : Int} (h : d ≠ d') :
    findDay (m.filter (fun p => decide (p.1 ≠ d))) d' = findDay m d' := by
  induction m with
  | nil => rfl
  | cons a l ih =>
    by_cases ha : a.1 = d
    · have : (decide (a.1 ≠ d)) = false := by simp [ha]
      rw [List.filter_cons, this]
      simp only [Bool.false_eq_true, if_false, ih]
      rw [findDay, if_neg (by rw [ha]; exact h)]
    · have : (decide (a.1 ≠ d)) = true := by simp [ha]
      rw [List.filter_cons, this]
      simp only [if_true]
      rw [findDay, findDay, ih]

lemma findDay_insertDay (m : List (Int × Day)) (d : Int) (v : Day) (d' : Int) :
    findDay (insertDay m d v) d' = if d = d' then some v else findDay m d' := by
  rw [insertDay, findDay]
  by_cases h : d = d'
  · rw [if_pos h, if_pos h]
  · rw [if_neg h, if_neg h, findDay_filter_ne h]

lemma insertDay_insertDay (m : List (Int × Day)) (d : Int) (v v' : Day) :
    insertDay (insertDay m d v) d v' = insertDay m d v' := by
  simp only [insertDay, List.filter_cons]
  have hd : (decide (d ≠ d)) = false := by simp
  rw [hd]
  simp only [Bool.false_eq_true, if_false, List.filter_filter]
  congr 1
  apply List.filter_congr
  intro a _
  simp

/-- C1: on a date that already has a record, `log_sport` merges `workout`,
`training` and `cheatday` with logical OR against the stored record and
leaves `weight` unchanged. -/
theorem log_sport_or_merges_flags (h : History) (d : Int) (day : Day)
    (hd : findDay h.map d = some day) (w t : Bool) (b : Option ℚ) (c : Bool) :
    ∃ r, findDay (h.log_sport d w t b c).map d = some r ∧
      r.workout = (day.workout || w) ∧
      r.training = (day.training || t) ∧
      r.cheatday = (day.cheatday || c) ∧
      r.weight = day.weight := by
  have key : findDay (h.log_sport d w t b c).map d =
      some (Day.new day.weight (day.workout || w) (day.training || t)
        (match b with | some x => some x | none => day.biking)
        (day.cheatday || c)) := by
    simp only [History.log_sport, hd]
    rw [findDay_insertDay, if_pos rfl]
  exact ⟨_, key, rfl, rfl, rfl, rfl⟩

/-- Witness for C1 at a concrete store: date 0 holds a record with
workout already true; logging training afterwards keeps workout true,
sets training, and leaves the weight untouched. -/
theorem log_sport_or_merges_flags_witness :
    ∃ r, findDay ((History.mk [((0 : Int),
        Day.new (some 70) true false (some 5) false)]).log_sport
          0 false true none true).map 0 = some r ∧
      r.workout = true ∧ r.training = true ∧ r.cheatday = true ∧
      r.weight = some 70 :=
  log_sport_or_merges_flags ⟨[(0, Day.new (some 70) true false (some 5) false)]⟩
    0 (Day.new (some 70) true false (some 5) false) rfl false true none true

/-- C2: on a date that already has a record, `log_sport` merges `biking`
by last-non-absent-value-wins: a supplied value overwrites the stored one,
while an absent argument retains the stored value unchanged. -/
theorem log_sport_biking_last_wins (h : History) (d : Int) (day : Day)
    (hd : findDay h.map d = some day) (w t : Bool) (b : Option ℚ) (c : Bool) :
    ∃ r, findDay (h.log_sport d w t b c).map d = some r ∧
      (∀ x, b = some x → r.biking = some x) ∧
      (b = none → r.biking = day.biking) := by
  have key : findDay (h.log_sport d w t b c).map d =
      some (Day.new day.weight (day.workout || w) (day.training || t)
        (match b with | some x => some x | none => day.biking)
        (day.cheatday || c)) := by
    simp only [History.log_sport, hd]
    rw [findDay_insertDay, if_pos rfl]
  refine ⟨_, key, ?_, ?_⟩
  · intro x hx
    subst hx
    rfl
  · intro hb
    subst hb
    rfl

/-- Witness for C2 at a concrete store: date 0 stores biking=5; a later
`log_sport` call with biking absent retains 5. -/
theorem log_sport_biking_last_wins_witness :
    ∃ r, findDay ((History.mk [((0 : Int),
        Day.new none false false (some 5) false)]).log_sport
          0 true false none false).map 0 = some r ∧
      (∀ x, (none : Option ℚ) = some x → r.biking = some x) ∧
      ((none : Option ℚ) = none → r.biking = some 5) :=
  log_sport_biking_last_wins ⟨[(0, Day.new none false false (some 5) false)]⟩
    0 (Day.new none false false (some 5) false) rfl true false none false

/-- C4: `log_weight` on a date with an existing record replaces only that
record's `weight` field and preserves the other four fields; on a date with
no record it creates `Day::new(Some(weight), false, false, None, false)`. -/
theorem log_weight_replaces_only_weight (h : History) (d : Int) (w : ℚ) :
    findDay (h.log_weight d w).map d =
      some (match findDay h.map d with
        | some day =>
            Day.new (some w) day.workout day.training day.biking day.cheatday
        | none => Day.new (some w) false false none false) := by
  show findDay (insertDay h.map d _) d = _
  rw [findDay_insertDay, if_pos rfl]

/-- C10: `log_sport` is idempotent: a second call with identical arguments
leaves the store exactly as after the first call. -/
theorem log_sport_idempotent (h : History) (d : Int) (w t : Bool)
    (b : Option ℚ) (c : Bool) :
    (h.log_sport d w t b c).log_sport d w t b c = h.log_sport d w t b c := by
  have hfind : findDay (h.log_sport d w t b c).map d =
      some (match findDay h.map d with
        | some day =>
            Day.new day.weight (day.workout || w) (day.training || t)
              (match b with | some x => some x | none => day.biking)
              (day.cheatday || c)
        | none => Day.new none w t b c) := by
    show findDay (insertDay h.map d _) d = _
    rw [findDay_insertDay, if_pos rfl]
  show History.mk (insertDay (h.log_sport d w t b c).map d _) = _
  rw [hfind]
  cases hd : findDay h.map d with
  | none =>
    simp only [hd]
    cases b <;>
      simp [History.log_sport, hd, Day.new, insertDay_insertDay]
  | some day =>
    simp only [hd]
    cases b <;>
      simp [History.log_sport, hd, Day.new, insertDay_insertDay,
        Bool.or_assoc]

lemma codeActive_eq_specActive (day : Day) : codeActive day = specActive day := by
  unfold codeActive specActive
  cases hb : day.biking with
  | none =>
    have : decide ((0 : ℚ) ≥ BIKING_DISTANCE) = false := by
      rw [decide_eq_false_iff_not]
      norm_num [BIKING_DISTANCE]
    simp [this]
  | some x => simp [ge_iff_le]

/-- C3: the streak value satisfies the recursive definition of the spec:
0 when the date has no record or its record is not active, otherwise one
plus the streak of the previous calendar day; active means workout, or
training, or a present biking value at least the threshold 10.0. -/
theorem get_sport_streak_recursion (h : History) (d : Int) :
    h.get_sport_streak d =
      match findDay h.map d with
      | none => 0
      | some day =>
          if specActive day then 1 + h.get_sport_streak (d - 1) else 0 := by
  rw [History.get_sport_streak.eq_def]
  split
  · rename_i heq
    rw [heq]
  · rename_i day heq
    rw [heq, codeActive_eq_specActive]

lemma get_sport_streak_le_filter (h : History) : ∀ (n : Nat) (d : Int),
    (h.map.filter (fun p => decide (p.1 ≤ d))).length ≤ n →
    h.get_sport_streak d ≤ (h.map.filter (fun p => decide (p.1 ≤ d))).length := by
  intro n
  induction n with
  | zero =>
    intro d hd
    rw [History.get_sport_streak.eq_def]
    split
    · exact Nat.zero_le _
    · rename_i day heq
      have := filter_pred_lt heq
      omega
  | succ n ih =>
    intro d hd
    rw [History.get_sport_streak.eq_def]
    split
    · exact Nat.zero_le _
    · rename_i day heq
      have hlt := filter_pred_lt heq
      by_cases hact : codeActive day
      · rw [if_pos hact]
        have h1 := ih (d - 1) (by omega)
        omega
      · rw [if_neg hact]
        exact Nat.zero_le _

lemma get_sport_streak_halts (h : History) : ∀ (n : Nat) (d : Int),
    (h.map.filter (fun p => decide (p.1 ≤ d))).length ≤ n →
    activeAt h (d - (h.get_sport_streak d : Int)) = false := by
  intro n
  induction n with
  | zero =>
    intro d hd
    rw [History.get_sport_streak.eq_def]
    split
    · rename_i heq
      simp [activeAt, heq]
    · rename_i day heq
      have := filter_pred_lt heq
      omega
  | succ n ih =>
    intro d hd
    rw [History.get_sport_streak.eq_def]
    split
    · rename_i heq
      simp [activeAt, heq]
    · rename_i day heq
      have hlt := filter_pred_lt heq
      by_cases hact : codeActive day
      · rw [if_pos hact]
        have hrec := ih (d - 1) (by omega)
        have harg : d - ((1 + h.get_sport_streak (d - 1) : Nat) : Int) =
            d - 1 - (h.get_sport_streak (d - 1) : Int) := by
          push_cast
          ring
        rw [harg]
        exact hrec
      · rw [if_neg hact]
        have hact' : codeActive day = false := by
          revert hact
          cases codeActive day <;> simp
        simp [activeAt, heq, hact']

/-- C9: the backward streak walk always halts after finitely many steps:
the streak never exceeds the number of records in the store, and the day
reached by walking back `streak` days from the reference date is inactive
or absent. -/
theorem get_sport_streak_terminates (h : History) (d : Int) :
    h.get_sport_streak d ≤ h.map.length ∧
    activeAt h (d - (h.get_sport_streak d : Int)) = false :=
  ⟨le_trans
      (get_sport_streak_le_filter h
        (h.map.filter (fun p => decide (p.1 ≤ d))).length d le_rfl)
      (List.length_filter_le _ _),
    get_sport_streak_halts h
      (h.map.filter (fun p => decide (p.1 ≤ d))).length d le_rfl⟩

lemma findDay_log_weight (h : History) (d0 : Int) (w : ℚ) (d : Int) :
    findDay (h.log_weight d0 w).map d =
      if d0 = d then
        some (match findDay h.map d0 with
          | some day =>
              Day.new (some w) day.workout day.training day.biking day.cheatday
          | none => Day.new (some w) false false none false)
      else findDay h.map d := by
  simp only [History.log_weight]
  rw [findDay_insertDay]

lemma findDay_log_sport (h : History) (d0 : Int) (w t : Bool) (b : Option ℚ)
    (c : Bool) (d : Int) :
    findDay (h.log_sport d0 w t b c).map d =
      if d0 = d then
        some (match findDay h.map d0 with
          | some day =>
              Day.new day.weight (day.workout || w) (day.training || t)
                (match b with | some x => some x | none => day.biking)
                (day.cheatday || c)
          | none => Day.new none w t b c)
      else findDay h.map d := by
  simp only [History.log_sport]
  rw [findDay_insertDay]

lemma log_weight_preserves_hasField (h : History)
    (hinv : ∀ d day, findDay h.map d = some day → day.hasField = true)
    (d0 : Int) (w : ℚ) :
    ∀ d day, findDay (h.log_weight d0 w).map d = some day →
      day.hasField = true := by
  intro d day hfd
  rw [findDay_log_weight] at hfd
  by_cases hdd : d0 = d
  · rw [if_pos hdd] at hfd
    cases hfd
    cases hfm : findDay h.map d0 <;>
      simp [hfm, Day.new, Day.hasField]
  · rw [if_neg hdd] at hfd
    exact hinv d day hfd

lemma log_sport_preserves_hasField (h : History)
    (hinv : ∀ d day, findDay h.map d = some day → day.hasField = true)
    (d0 : Int) (w t : Bool) (b : Option ℚ) (c : Bool)
    (hgood : (w || t || b.isSome || c) = true) :
    ∀ d day, findDay (h.log_sport d0 w t b c).map d = some day →
      day.hasField = true := by
  intro d day hfd
  rw [findDay_log_sport] at hfd
  by_cases hdd : d0 = d
  · rw [if_pos hdd] at hfd
    cases hfd
    cases hfm : findDay h.map d0 with
    | none => simpa [Day.new, Day.hasField] using hgood
    | some day0 =>
      have h0 := hinv d0 day0 hfm
      simp only [Day.hasField, Day.new, Bool.or_eq_true] at h0 ⊢
      cases b with
      | none => tauto
      | some x => simp
  · rw [if_neg hdd] at hfd
    exact hinv d day hfd

lemma foldl_preserves_hasField : ∀ (ops : List Op) (h : History),
    (∀ op ∈ ops, opSetsField op = true) →
    (∀ d day, findDay h.map d = some day → day.hasField = true) →
    ∀ d day, findDay (ops.foldl applyOp h).map d = some day →
      day.hasField = true := by
  intro ops
  induction ops with
  | nil =>
    intro h _ hinv
    simpa using hinv
  | cons op rest ih =>
    intro h hops hinv
    rw [List.foldl_cons]
    apply ih
    · intro o ho
      exact hops o (List.mem_cons_of_mem _ ho)
    · cases op with
      | weight d0 w =>
        exact log_weight_preserves_hasField h hinv d0 w
      | sport d0 w t b c =>
        exact log_sport_preserves_hasField h hinv d0 w t b c
          (hops _ (List.mem_cons_self _ _))

/-- C5 counterexample: the claim fails as stated. A `log_sport` call with
workout=false, training=false, biking absent and cheatday=false is a legal
operation sequence from the empty store, yet it persists exactly the
all-default placeholder record for its date. -/
theorem reachable_empty_record_cex :
    ¬ (∀ (ops : List Op) (d : Int) (day : Day),
        findDay (runOps ops).map d = some day → day ≠ emptyDay) := by
  intro hclaim
  exact hclaim [Op.sport 0 false false none false] 0 emptyDay rfl rfl

/-- C5 (amended): in every store reachable from the empty store by
`log_weight` and `log_sport` operations that each supply at least one field
(for `log_sport`: workout, training or cheatday true, or biking present),
no all-default placeholder record is present. -/
theorem runOps_no_empty_record (ops : List Op)
    (hops : ∀ op ∈ ops, opSetsField op = true) (d : Int) (day : Day)
    (hfd : findDay (runOps ops).map d = some day) : day ≠ emptyDay := by
  have hfield : day.hasField = true :=
    foldl_preserves_hasField ops ⟨[]⟩ hops
      (by intro d' day' hfd'; simp [findDay] at hfd') d day hfd
  intro hEq
  subst hEq
  simp [Day.hasField, emptyDay] at hfield

/-- Witness for the amended C5: logging a weight from the empty store
yields a record that is not the all-default placeholder. -/
theorem runOps_no_empty_record_witness :
    Day.new (some 70) false false none false ≠ emptyDay :=
  runOps_no_empty_record [Op.weight 0 70]
    (fun op hop => by
      rw [List.mem_singleton] at hop
      subst hop
      rfl)
    0 (Day.new (some 70) false false none false) rfl

lemma decodeDay_encodeDay (day : Day) : decodeDay (encodeDay day) = some day := by
  obtain ⟨weight, workout, training, biking, cheatday⟩ := day
  cases weight <;> cases biking <;> rfl

lemma decodeDay_encodeDay_drop_biking (day : Day) :
    decodeDay (dropField (encodeDay day) "biking") =
      some (Day.new day.weight day.workout day.training none day.cheatday) := by
  obtain ⟨weight, workout, training, biking, cheatday⟩ := day
  cases weight <;> cases biking <;> rfl

lemma decodeDay_encodeDay_drop_cheatday (day : Day) :
    decodeDay (dropField (encodeDay day) "cheatday") =
      some (Day.new day.weight day.workout day.training day.biking false) := by
  obtain ⟨weight, workout, training, biking, cheatday⟩ := day
  cases weight <;> cases biking <;> rfl

/-- C8: the serialization round-trip is lossless: decoding the document
written for any `History` yields that `History` back. -/
theorem encode_decode_roundtrip (h : History) :
    decodeHistory (encodeHistory h) = some h := by
  obtain ⟨m⟩ := h
  suffices hsuff : decodeEntries (encodeHistory ⟨m⟩) = some m by
    rw [decodeHistory, hsuff]
    rfl
  induction m with
  | nil => rfl
  | cons p rest ih =>
    obtain ⟨d, day⟩ := p
    show decodeEntries ((d, encodeDay day) :: _) = _
    rw [decodeEntries, decodeDay_encodeDay]
    rw [encodeHistory] at ih
    simp only [List.map] at ih ⊢
    rw [ih]

/-- C7: a persisted history written by an earlier schema version that lacks
the `biking` field, or the `cheatday` field, of the day records still
decodes; the missing field defaults to absent (`biking`) respectively false
(`cheatday`). -/
theorem decode_missing_optional_defaults (m : List (Int × Day)) :
    decodeHistory (m.map (fun p => (p.1, dropField (encodeDay p.2) "biking"))) =
      some ⟨m.map (fun p => (p.1,
        Day.new p.2.weight p.2.workout p.2.training none p.2.cheatday))⟩ ∧
    decodeHistory (m.map (fun p => (p.1, dropField (encodeDay p.2) "cheatday"))) =
      some ⟨m.map (fun p => (p.1,
        Day.new p.2.weight p.2.workout p.2.training p.2.biking false))⟩ := by
  constructor
  · suffices hsuff : decodeEntries
        (m.map (fun p => (p.1, dropField (encodeDay p.2) "biking"))) =
        some (m.map (fun p => (p.1,
          Day.new p.2.weight p.2.workout p.2.training none p.2.cheatday))) by
      rw [decodeHistory, hsuff]
      rfl
    induction m with
    | nil => rfl
    | cons p rest ih =>
      obtain ⟨d, day⟩ := p
      simp only [List.map]
      rw [decodeEntries, decodeDay_encodeDay_drop_biking, ih]
  · suffices hsuff : decodeEntries
        (m.map (fun p => (p.1, dropField (encodeDay p.2) "cheatday"))) =
        some (m.map (fun p => (p.1,
          Day.new p.2.weight p.2.workout p.2.training p.2.biking false))) by
      rw [decodeHistory, hsuff]
      rfl
    induction m with
    | nil => rfl
    | cons p rest ih =>
      obtain ⟨d, day⟩ := p
      simp only [List.map]
      rw [decodeEntries, decodeDay_encodeDay_drop_cheatday, ih]

lemma saveSteps_cases (f : Faults) (disk : Option FileContent) (h : History) :
    (∀ e, (saveSteps f disk h).1 = Except.error e → e ≠ RunErr.writeErr →
        (saveSteps f disk h).2 = disk) ∧
    ((saveSteps f disk h).1 = Except.error RunErr.writeErr →
        (saveSteps f disk h).2 = some FileContent.truncated) ∧
    ((saveSteps f disk h).1 = Except.ok () →
        (saveSteps f disk h).2 = some (FileContent.good h.map)) := by
  unfold saveSteps
  cases hpl : f.placeFails <;> cases hc : f.createFails <;>
    cases hw : f.writeFails <;> simp

lemma loadStep_error_eq {f : Faults} {disk : Option FileContent} {e : RunErr}
    (h : loadStep f disk = Except.error e) : e = RunErr.loadErr := by
  cases disk with
  | none => simp [loadStep] at h
  | some content =>
    cases hr : f.readFails with
    | true =>
      simp [loadStep, hr] at h
      exact h.symm
    | false =>
      cases content with
      | good m => simp [loadStep, hr] at h
      | truncated =>
        simp [loadStep, hr] at h
        exact h.symm

lemma runLog_cases (f : Faults) (disk : Option FileContent)
    (mutate : History → History) :
    (∀ e, (runLog f disk mutate).1 = Except.error e → e ≠ RunErr.writeErr →
        (runLog f disk mutate).2 = disk) ∧
    ((runLog f disk mutate).1 = Except.error RunErr.writeErr →
        (runLog f disk mutate).2 = some FileContent.truncated) ∧
    (∀ h', loadStep f disk = Except.ok h' →
        (runLog f disk mutate).1 = Except.ok () →
        (runLog f disk mutate).2 = some (FileContent.good (mutate h').map)) := by
  unfold runLog
  cases hl : loadStep f disk with
  | error e =>
    have he := loadStep_error_eq hl
    subst he
    refine ⟨fun e' he' _ => rfl, fun hw => ?_, fun h' hh' _ => ?_⟩
    · cases hw
    · cases hh'
  | ok h =>
    cases hp : f.parseFails with
    | true =>
      refine ⟨fun e' he' _ => rfl, fun hw => ?_, fun h' hh' hok => ?_⟩
      · simp at hw
      · simp at hok
    | false =>
      simp only [Bool.false_eq_true, if_false]
      obtain ⟨c1, c2, c3⟩ := saveSteps_cases f disk (mutate h)
      refine ⟨c1, c2, fun h' hh' hok => ?_⟩
      injection hh' with hh''
      subst hh''
      exact c3 hok

/-- C6 counterexample: the claim fails as stated. With a write failure
after a successful `File::create`, the logging call errors, yet the disk
no longer holds its previous contents: it holds the truncated file. -/
theorem log_persistence_cex :
    ¬ (∀ (f : Faults) (disk : Option FileContent) (date : Int) (w t : Bool)
        (b : Option ℚ) (c : Bool) (e : RunErr),
        (runLogSport f disk date w t b c).1 = Except.error e →
        (runLogSport f disk date w t b c).2 = disk) := by
  intro hclaim
  have hres := hclaim ⟨false, false, false, false, true⟩
    (some (FileContent.good [(0, Day.new none true false none false)]))
    0 true false none false RunErr.writeErr rfl
  exact absurd hres (by decide)

/-- C6 (amended): a logging operation (`log_weight` or `log_sport`) either
fully merges and persists the updated store, or fails; on a date-parse,
load, file-locate or file-create failure the disk is left exactly as
before, but on a write failure after the successful `File::create` the
disk is left holding the truncated (empty) file rather than its previous
contents. -/
theorem log_persistence_amended (f : Faults) (disk : Option FileContent)
    (date : Int) (w t : Bool) (b : Option ℚ) (c : Bool) (weight : ℚ) :
    (∀ e, (runLogSport f disk date w t b c).1 = Except.error e →
        e ≠ RunErr.writeErr → (runLogSport f disk date w t b c).2 = disk) ∧
    ((runLogSport f disk date w t b c).1 = Except.error RunErr.writeErr →
        (runLogSport f disk date w t b c).2 = some FileContent.truncated) ∧
    (∀ h', loadStep f disk = Except.ok h' →
        (runLogSport f disk date w t b c).1 = Except.ok () →
        (runLogSport f disk date w t b c).2 =
          some (FileContent.good ((h'.log_sport date w t b c).map))) ∧
    (∀ e, (runLogWeight f disk date weight).1 = Except.error e →
        e ≠ RunErr.writeErr → (runLogWeight f disk date weight).2 = disk) ∧
    ((runLogWeight f disk date weight).1 = Except.error RunErr.writeErr →
        (runLogWeight f disk date weight).2 = some FileContent.truncated) ∧
    (∀ h', loadStep f disk = Except.ok h' →
        (runLogWeight f disk date weight).1 = Except.ok () →
        (runLogWeight f disk date weight).2 =
          some (FileContent.good ((h'.log_weight date weight).map))) := by
  obtain ⟨s1, s2, s3⟩ := runLog_cases f disk (fun h => h.log_sport date w t b c)
  obtain ⟨w1, w2, w3⟩ := runLog_cases f disk (fun h => h.log_weight date weight)
  exact ⟨s1, s2, s3, w1, w2, w3⟩

/-- Witness for the amended C6: with only the write step failing, a
concrete `log_sport` call leaves the truncated file on disk. -/
theorem log_persistence_amended_witness :
    (runLogSport ⟨false, false, false, false, true⟩
      (some (FileContent.good [])) 0 true false none false).2 =
      some FileContent.truncated :=
  (log_persistence_amended ⟨false, false, false, false, true⟩
    (some (FileContent.good [])) 0 true false none false 70).2.1 rfl

end HealthTracker
